import Mathlib

/-!
# NamespaceNamingCheck (aliceO2 clang-tidy rule)

A shallow embedding of `src/aliceO2/NamespaceNamingCheck.cpp`.

* A `std::string` is a `List Char`; `char` classification is that of the "C" locale.
* `int` is a 32-bit two's-complement integer; `size_t` is 64 bits wide.
* Reading or writing `name[i]` outside the string, and signed overflow of `i++`, are undefined
  behaviour in C++; the embedding reports them as a `Fault`.
* `std::regex_match` and the name matcher of clang are library code; they are embedded as a
  derivative matcher over the constructs the two patterns use, proved equivalent to the
  declarative meaning of those constructs.
* The names clang hands to the rule are identifiers: they contain no colon and are far shorter
  than `2^31` characters.
-/

namespace NamespaceNamingCheck

/-! ## `<ctype.h>` in the "C" locale -/

/-- The function `isupper` of `<ctype.h>`: the letters `A`..`Z`. -/
def isupper (c : Char) : Bool := decide (65 ≤ c.toNat) && decide (c.toNat ≤ 90)

/-- The function `islower` of `<ctype.h>`: the letters `a`..`z`. -/
def islower (c : Char) : Bool := decide (97 ≤ c.toNat) && decide (c.toNat ≤ 122)

/-- The function `isdigit` of `<ctype.h>`: the digits `0`..`9`. -/
def isdigit (c : Char) : Bool := decide (48 ≤ c.toNat) && decide (c.toNat ≤ 57)

/-- The function `tolower` of `<ctype.h>`: an uppercase letter is moved 32 code points up,
every other character is returned unchanged. -/
def tolower (c : Char) : Char := if isupper c then Char.ofNat (c.toNat + 32) else c

/-! ## Machine integers -/

/-- Largest value of a 32-bit `int`. -/
def INT_MAX : Int := 2147483647

/-- Conversion of a `size_t` value to `int`: reduction modulo `2^32` into the signed range. -/
def toInt32 (n : Nat) : Int :=
  if n % 4294967296 < 2147483648 then ((n % 4294967296 : Nat) : Int)
  else ((n % 4294967296 : Nat) : Int) - 4294967296

/-- The initialiser `name.size()-1` of the loop index: the subtraction is done in `size_t`
(modulo `2^64`, so an empty string gives `2^64 - 1`) and the result is converted to `int`. -/
def initialIndex (size : Nat) : Int :=
  toInt32 ((size + 18446744073709551615) % 18446744073709551616)

/-! ## `fixNamespaceName` -/

/-- Ways in which an execution of `fixNamespaceName` can leave defined behaviour, plus the
exhaustion of the iteration budget of the embedding. -/
inductive Fault where
  | outOfBounds
  | intOverflow
  | nullPointer
  | outOfFuel
  deriving DecidableEq

instance : DecidableEq (Except Fault (List Char)) := fun a b =>
  match a, b with
  | .ok x, .ok y => if h : x = y then isTrue (by rw [h]) else isFalse (fun e => h (by cases e; rfl))
  | .error x, .error y =>
    if h : x = y then isTrue (by rw [h]) else isFalse (fun e => h (by cases e; rfl))
  | .ok _, .error _ => isFalse (fun e => by cases e)
  | .error _, .ok _ => isFalse (fun e => by cases e)

/-- Read access `name[i]` for a non-negative `int` index. -/
def readAt (name : List Char) (i : Int) : Except Fault Char :=
  if i < 0 then .error .outOfBounds
  else match name[i.toNat]? with
    | some c => .ok c
    | none => .error .outOfBounds

/-- Write access `name[i] = c`. -/
def writeAt (name : List Char) (i : Int) (c : Char) : Except Fault (List Char) :=
  if i < 0 then .error .outOfBounds
  else if i.toNat < name.length then .ok (name.set i.toNat c)
  else .error .outOfBounds

/-- The call `name.insert(i, "_")`, which requires `i ≤ name.size()`. -/
def insertUnderscore (name : List Char) (i : Int) : Except Fault (List Char) :=
  if i < 0 then .error .outOfBounds
  else if i.toNat ≤ name.length then .ok (name.take i.toNat ++ '_' :: name.drop i.toNat)
  else .error .outOfBounds

/-- The statement `i++` on an `int`: the incremented value has to be representable. -/
def increment (i : Int) : Except Fault Int :=
  if INT_MAX < i + 1 then .error .intOverflow else .ok (i + 1)

/-- The inner `if(i != 0 && islower(name[i-1])) { name.insert(i, "_"); i++; }`.
The `&&` is short-circuit: `name[i-1]` is read only when `i != 0`. -/
def insertSeparator (name : List Char) (i : Int) : Except Fault (List Char × Int) :=
  if i ≠ 0 then
    match readAt name (i - 1) with
    | .error e => .error e
    | .ok p =>
      if islower p then
        match insertUnderscore name i with
        | .error e => .error e
        | .ok name1 =>
          match increment i with
          | .error e => .error e
          | .ok i1 => .ok (name1, i1)
      else .ok (name, i)
  else .ok (name, i)

/-- One iteration of the `for` loop, entered with `i >= 0`: the loop body followed by the
loop's own `i--`. -/
def loopIteration (name : List Char) (i : Int) : Except Fault (List Char × Int) :=
  match readAt name i with
  | .error e => .error e
  | .ok c =>
    if isupper c then
      match insertSeparator name i with
      | .error e => .error e
      | .ok (name1, i1) =>
        match readAt name1 i1 with
        | .error e => .error e
        | .ok c1 =>
          match writeAt name1 i1 (tolower c1) with
          | .error e => .error e
          | .ok name2 => .ok (name2, i1 - 1)
    else .ok (name, i - 1)

/-- The loop `for(...; i>=0; i--) { ... }` run for at most `fuel` evaluations of its guard. -/
def fixNamespaceNameLoop : Nat → List Char → Int → Except Fault (List Char)
  | 0, _, _ => .error .outOfFuel
  | fuel + 1, name, i =>
    if 0 ≤ i then
      match loopIteration name i with
      | .error e => .error e
      | .ok (name1, i1) => fixNamespaceNameLoop fuel name1 i1
    else .ok name

/-- The function `NamespaceNamingCheck::fixNamespaceName` with an explicit iteration budget. -/
def fixNamespaceNameFuel (fuel : Nat) (name : List Char) : Except Fault (List Char) :=
  fixNamespaceNameLoop fuel name (initialIndex name.length)

/-- The function `NamespaceNamingCheck::fixNamespaceName`: the value of `name` when the
function returns. Every character costs at most two iterations, so `2 * size + 1` guard
evaluations are allowed. -/
def fixNamespaceName (name : List Char) : Except Fault (List Char) :=
  fixNamespaceNameFuel (2 * name.length + 1) name

/-! ## The left-to-right description of the renamer -/

/-- What the left-to-right pass emits for the character `c` whose predecessor in the input
is `prev` (`none` at position 0). -/
def emit (prev : Option Char) (c : Char) : List Char :=
  if isupper c && prev.any islower then ['_', tolower c] else [tolower c]

/-- The left-to-right pass, started with the predecessor `prev`. -/
def toSnakeCaseFrom : Option Char → List Char → List Char
  | _, [] => []
  | prev, c :: rest => emit prev c ++ toSnakeCaseFrom (some c) rest

/-- The renamer as one left-to-right pass over the identifier (`toSnakeCase` of the spec). -/
def toSnakeCase (s : List Char) : List Char := toSnakeCaseFrom none s

/-- What the pass emits at position `i` of `s`, in terms of positions: the lowercased
character, preceded by an underscore exactly when the character is an uppercase letter,
`i > 0` and the character at position `i - 1` of `s` is a lowercase letter. -/
def emitAt (s : List Char) (i : Nat) : List Char :=
  match s[i]? with
  | none => []
  | some c =>
    if isupper c && decide (0 < i) && (s[i - 1]?).any islower then ['_', tolower c]
    else [tolower c]

/-- The predecessor seen by the character that follows `q`, when `q` was entered with
predecessor `prev`. -/
def prevOf : Option Char → List Char → Option Char
  | prev, [] => prev
  | _, x :: q => prevOf (some x) q

/-! ## Regular expressions -/

/-- The regular expressions needed for the two patterns of the rule. -/
inductive Regex where
  /-- Matches no string; arises only as a derivative. -/
  | empty : Regex
  /-- The empty pattern. -/
  | eps : Regex
  /-- One character accepted by a test: a literal, `.`, or a bracket expression. -/
  | sym : (Char → Bool) → Regex
  /-- Concatenation. -/
  | seq : Regex → Regex → Regex
  /-- Alternation `|`. -/
  | alt : Regex → Regex → Regex
  /-- Repetition `*`. -/
  | star : Regex → Regex
  /-- Repetition `+`. -/
  | plus : Regex → Regex

/-- A literal character. -/
def chr (c : Char) : Regex := .sym (fun x => x == c)

/-- The ECMAScript `.`: any character except the line terminators of a `char` string. -/
def dot : Regex := .sym (fun x => x != '\n' && x != '\r')

/-- Membership of a character in a bracket expression given by its ranges. -/
def inRanges (ranges : List (Char × Char)) (x : Char) : Bool :=
  ranges.any (fun r => decide (r.1.toNat ≤ x.toNat) && decide (x.toNat ≤ r.2.toNat))

/-- A bracket expression `[...]`, given by its ranges (a single character is a one-element
range). -/
def bracket (ranges : List (Char × Char)) : Regex := .sym (inRanges ranges)

/-- A sequence of literal characters. -/
def lit : List Char → Regex
  | [] => .eps
  | c :: cs => .seq (chr c) (lit cs)

/-- Whether the expression matches the empty string. -/
def nullable : Regex → Bool
  | .empty => false
  | .eps => true
  | .sym _ => false
  | .seq a b => nullable a && nullable b
  | .alt a b => nullable a || nullable b
  | .star _ => true
  | .plus a => nullable a

/-- Brzozowski derivative: the expression matching what may follow the character `c`. -/
def deriv : Regex → Char → Regex
  | .empty, _ => .empty
  | .eps, _ => .empty
  | .sym p, c => if p c then .eps else .empty
  | .seq a b, c =>
    if nullable a then .alt (.seq (deriv a c) b) (deriv b c) else .seq (deriv a c) b
  | .alt a b, c => .alt (deriv a c) (deriv b c)
  | .star a, c => .seq (deriv a c) (.star a)
  | .plus a, c => .seq (deriv a c) (.star a)

/-- The call `std::regex_match(s, std::regex(r))`: whether the whole of `s` matches `r`. -/
def regex_match (s : List Char) (r : Regex) : Bool := nullable (s.foldl deriv r)

/-- The pattern `"[a-z][a-z_0-9]+"`. -/
def VALID_NAME_REGEX : Regex :=
  .seq (bracket [('a', 'z')]) (.plus (bracket [('a', 'z'), ('_', '_'), ('0', '9')]))

/-- The pattern `"(.*/O2/.*)|(.*/test/.*)"`. -/
def VALID_PATH_REGEX : Regex :=
  .alt (.seq (.star dot) (.seq (lit ['/', 'O', '2', '/']) (.star dot)))
    (.seq (.star dot) (.seq (lit ['/', 't', 'e', 's', 't', '/']) (.star dot)))

/-- The function `isOutsideOfTargetScope`: a file name is outside when it does not fully
match `VALID_PATH_REGEX`. -/
def isOutsideOfTargetScope (filename : List Char) : Bool :=
  !regex_match filename VALID_PATH_REGEX

/-- Declarative meaning of a regular expression: `Matches r s` when the whole of `s`
matches `r`. -/
inductive Matches : Regex → List Char → Prop
  | eps : Matches .eps []
  | sym {p : Char → Bool} {c : Char} : p c = true → Matches (.sym p) [c]
  | seq {a b : Regex} {s t : List Char} : Matches a s → Matches b t → Matches (.seq a b) (s ++ t)
  | altL {a b : Regex} {s : List Char} : Matches a s → Matches (.alt a b) s
  | altR {a b : Regex} {s : List Char} : Matches b s → Matches (.alt a b) s
  | starNil {a : Regex} : Matches (.star a) []
  | starCons {a : Regex} {s t : List Char} :
      Matches a s → Matches (.star a) t → Matches (.star a) (s ++ t)
  | plus {a : Regex} {s t : List Char} :
      Matches a s → Matches (.star a) t → Matches (.plus a) (s ++ t)

/-! ## The AST nodes, the matchers and the handler -/

/-- A `NamespaceDecl`, as far as the rule looks at it. -/
structure NamespaceDecl where
  /-- The printed names of the enclosing scopes, outermost first. -/
  enclosing : List (List Char)
  /-- The simple name, `getDeclName().getAsString()`. -/
  name : List Char
  /-- The result of `isAnonymousNamespace()`. -/
  anonymous : Bool
  /-- The file of the declaration, `SourceManager->getFilename(getLocation())`. -/
  file : List Char
  /-- The position `getLocation()`. -/
  location : Nat
  deriving DecidableEq

/-- A `NestedNameSpecifierLoc`: one component of a qualified name. -/
structure NestedNameSpecifierLoc where
  /-- The result of `getNestedNameSpecifier()->getAsNamespace()`, null when the component is
  not a namespace. -/
  asNamespace : Option NamespaceDecl
  /-- The position `getLocalBeginLoc()`. -/
  localBeginLoc : Nat
  deriving DecidableEq

/-- A `UsingDirectiveDecl`. -/
structure UsingDirectiveDecl where
  /-- The result of `getNominatedNamespace()`. -/
  nominatedNamespace : NamespaceDecl
  /-- The result of `isImplicit()`. -/
  implicit : Bool
  /-- The position `getLocation()`. -/
  location : Nat
  deriving DecidableEq

/-- The AST nodes the three matchers range over. -/
inductive Node where
  | namespaceDecl (d : NamespaceDecl)
  | nestedNameSpecifierLoc (l : NestedNameSpecifierLoc)
  | usingDirectiveDecl (u : UsingDirectiveDecl)

/-- The bound nodes of a `MatchFinder::MatchResult`, by binding id; an id that is not bound
gives a null pointer. -/
structure MatchResult where
  /-- The node bound to `"namespace-decl"`. -/
  namespaceDecl : Option NamespaceDecl
  /-- The node bound to `"namespace-usage"`. -/
  namespaceUsage : Option NestedNameSpecifierLoc
  /-- The node bound to `"using-namespace"`. -/
  usingNamespace : Option UsingDirectiveDecl

/-- What one `diag(...) << decl << FixItHint::CreateReplacement(loc, text)` hands over to the
diagnostic engine. -/
structure Diagnostic where
  /-- The position of the diagnostic. -/
  location : Nat
  /-- The message template. -/
  message : String
  /-- The declaration substituted for `%0`. -/
  argument : NamespaceDecl
  /-- The position of the replacement. -/
  replacementLocation : Nat
  /-- The replacement text. -/
  replacementText : List Char
  deriving DecidableEq

/-- The call `getQualifiedNameAsString()`: every enclosing scope followed by `::`, then the
simple name. (For a declaration without a name clang prints a parenthesised placeholder
instead of the empty name; neither form ends in a valid name.) -/
def getQualifiedNameAsString (d : NamespaceDecl) : List Char :=
  (d.enclosing.map (fun e => e ++ [':', ':'])).flatten ++ d.name

/-- The matcher `matchesName(re + "$")`: an `llvm::Regex` search for `re` in `"::"` followed by
the qualified name, the match having to end where the string ends. -/
def matchesNameAtEnd (re : Regex) (d : NamespaceDecl) : Bool :=
  (([':', ':'] ++ getQualifiedNameAsString d).tails).any (fun t => regex_match t re)

/-- The matcher `validNameMatch` of `registerMatchers`, for the pattern
`std::string("::") + VALID_NAME_REGEX + "$"`. -/
def validNameMatch (d : NamespaceDecl) : Bool :=
  matchesNameAtEnd (.seq (lit [':', ':']) VALID_NAME_REGEX) d

/-- The matcher bound to `"namespace-decl"`. -/
def namespaceDeclMatcher : Node → Option MatchResult
  | .namespaceDecl d =>
    if !validNameMatch d && !d.anonymous then
      some { namespaceDecl := some d, namespaceUsage := none, usingNamespace := none }
    else none
  | _ => none

/-- The matcher bound to `"namespace-usage"`; `specifiesNamespace` needs the component to be a
namespace. -/
def namespaceUsageMatcher : Node → Option MatchResult
  | .nestedNameSpecifierLoc l =>
    match l.asNamespace with
    | some ns =>
      if !validNameMatch ns then
        some { namespaceDecl := none, namespaceUsage := some l, usingNamespace := none }
      else none
    | none => none
  | _ => none

/-- The matcher bound to `"using-namespace"`. -/
def usingNamespaceMatcher : Node → Option MatchResult
  | .usingDirectiveDecl u =>
    if !u.implicit then
      some { namespaceDecl := none, namespaceUsage := none, usingNamespace := some u }
    else none
  | _ => none

/-- The function `NamespaceNamingCheck::registerMatchers`: the matchers in the order of
registration. -/
def registerMatchers : List (Node → Option MatchResult) :=
  [namespaceDeclMatcher, namespaceUsageMatcher, usingNamespaceMatcher]

/-- The message of the rule. -/
def message : String := "namespace %0 does not follow the underscore convention"

/-- The third block of `check`, for the node bound to `"using-namespace"`; `diags` are the
diagnostics emitted so far. -/
def checkUsingNamespace (Result : MatchResult) (diags : List Diagnostic) :
    Except Fault (List Diagnostic) :=
  match Result.usingNamespace with
  | none => .ok diags
  | some u =>
    if isOutsideOfTargetScope u.nominatedNamespace.file then .ok diags
    else if regex_match u.nominatedNamespace.name VALID_NAME_REGEX then .ok diags
    else
      match fixNamespaceName u.nominatedNamespace.name with
      | .error e => .error e
      | .ok newName =>
        .ok (diags ++ [⟨u.location, message, u.nominatedNamespace, u.location, newName⟩])

/-- The second block of `check`, for the node bound to `"namespace-usage"`, followed by the
third block. -/
def checkNamespaceUsage (Result : MatchResult) (diags : List Diagnostic) :
    Except Fault (List Diagnostic) :=
  match Result.namespaceUsage with
  | none => checkUsingNamespace Result diags
  | some l =>
    match l.asNamespace with
    | none => .error .nullPointer
    | some ns =>
      if isOutsideOfTargetScope ns.file then .ok diags
      else
        match fixNamespaceName ns.name with
        | .error e => .error e
        | .ok newName =>
          checkUsingNamespace Result
            (diags ++ [⟨l.localBeginLoc, message, ns, l.localBeginLoc, newName⟩])

/-- The function `NamespaceNamingCheck::check`: the diagnostics emitted for one match result. -/
def check (Result : MatchResult) : Except Fault (List Diagnostic) :=
  match Result.namespaceDecl with
  | none => checkNamespaceUsage Result []
  | some d =>
    if isOutsideOfTargetScope d.file then .ok []
    else
      match fixNamespaceName d.name with
      | .error e => .error e
      | .ok newName =>
        checkNamespaceUsage Result [⟨d.location, message, d, d.location, newName⟩]

/-- The match finder on one node: every registered matcher is tried in turn and `check` is
called on each match. -/
def runOnNode (n : Node) : Except Fault (List Diagnostic) :=
  registerMatchers.foldl
    (fun acc matcher =>
      match acc with
      | .error e => .error e
      | .ok diags =>
        match matcher n with
        | none => .ok diags
        | some Result =>
          match check Result with
          | .error e => .error e
          | .ok more => .ok (diags ++ more))
    (.ok [])

/-- The namespace a node declares or refers to. -/
def referencedNamespace : Node → Option NamespaceDecl
  | .namespaceDecl d => some d
  | .nestedNameSpecifierLoc l => l.asNamespace
  | .usingDirectiveDecl u => some u.nominatedNamespace

/-- The scope condition in the words "some segment of the path split on `/`, other than the
final segment, equals `O2` or `test`". -/
def hasDirectoryComponent (p : List Char) : Bool :=
  ((p.splitOn '/').dropLast).any (fun seg => seg == ['O', '2'] || seg == ['t', 'e', 's', 't'])

/-- The scope condition in the words "some segment of the path split on `/`, other than the
first and the final segment, equals `O2` or `test`". -/
def hasInnerDirectoryComponent (p : List Char) : Bool :=
  (((p.splitOn '/').tail).dropLast).any
    (fun seg => seg == ['O', '2'] || seg == ['t', 'e', 's', 't'])

/-- The declaration `namespace MyDet { }` at position 10 of a file below `O2`. -/
def myDetInScope : NamespaceDecl :=
  { enclosing := [], name := "MyDet".toList, anonymous := false,
    file := "/home/user/O2/Detectors/foo.cxx".toList, location := 10 }

/-- The declaration `namespace MyDet { }` at position 10 of a file of another project. -/
def myDetOutOfScope : NamespaceDecl :=
  { enclosing := [], name := "MyDet".toList, anonymous := false,
    file := "/home/user/otherproj/foo.cxx".toList, location := 10 }

/-- The namespace `my_det` declared inside `o2` in a file below `O2`. -/
def validNamespace : NamespaceDecl :=
  { enclosing := ["o2".toList], name := "my_det".toList, anonymous := false,
    file := "/home/user/O2/Detectors/foo.h".toList, location := 3 }

/-- The directive `using namespace o2::my_det;` at position 40. -/
def usingValidNamespace : UsingDirectiveDecl :=
  { nominatedNamespace := validNamespace, implicit := false, location := 40 }

/-! ## Character lemmas -/

theorem toNat_ofNat_small (n : Nat) (h : n < 55296) : (Char.ofNat n).toNat = n := by
  have hv : n.isValidChar := Or.inl h
  simp [Char.ofNat, Char.toNat, hv, Char.ofNatAux, UInt32.toNat]

theorem toNat_tolower (c : Char) :
    (tolower c).toNat = if isupper c then c.toNat + 32 else c.toNat := by
  unfold tolower
  split
  · rename_i h
    simp only [isupper, Bool.and_eq_true, decide_eq_true_eq] at h
    exact toNat_ofNat_small _ (by omega)
  · rfl

theorem tolower_of_not_upper {c : Char} (h : isupper c = false) : tolower c = c := by
  simp [tolower, h]

theorem isupper_tolower (c : Char) : isupper (tolower c) = false := by
  have h := toNat_tolower c
  by_cases hu : isupper c = true
  · rw [if_pos hu] at h
    simp only [isupper, Bool.and_eq_true, decide_eq_true_eq] at hu
    simp only [isupper, h, Bool.and_eq_false_iff, decide_eq_false_iff_not]
    omega
  · simp only [Bool.not_eq_true] at hu
    rw [tolower_of_not_upper hu]; exact hu

theorem islower_tolower {c : Char} (h : isupper c = true) : islower (tolower c) = true := by
  have h1 := toNat_tolower c
  rw [if_pos h] at h1
  simp only [isupper, Bool.and_eq_true, decide_eq_true_eq] at h
  simp only [islower, h1, Bool.and_eq_true, decide_eq_true_eq]
  omega

theorem isupper_underscore : isupper '_' = false := by decide

/-! ## The loop, one iteration at a time -/

theorem readAt_append (q : List Char) (c : Char) (done : List Char) :
    readAt (q ++ c :: done) (q.length : Int) = .ok c := by
  have h : ¬ ((q.length : Int) < 0) := by omega
  have hg : (q ++ c :: done)[q.length]? = some c := by
    rw [List.getElem?_append_right (le_refl _)]; simp
  simp only [readAt, if_neg h, Int.toNat_ofNat, hg]

theorem writeAt_append (q : List Char) (c x : Char) (done : List Char) :
    writeAt (q ++ c :: done) (q.length : Int) x = .ok (q ++ x :: done) := by
  have h : ¬ ((q.length : Int) < 0) := by omega
  simp [writeAt, h]

theorem insertUnderscore_append (q r : List Char) :
    insertUnderscore (q ++ r) (q.length : Int) = .ok (q ++ '_' :: r) := by
  have h : ¬ ((q.length : Int) < 0) := by omega
  simp [insertUnderscore, h]

theorem loopIteration_not_upper (q : List Char) (c : Char) (done : List Char)
    (hc : isupper c = false) :
    loopIteration (q ++ c :: done) (q.length : Int) = .ok (q ++ c :: done, (q.length : Int) - 1) := by
  simp [loopIteration, readAt_append, hc]

theorem loopIteration_upper_first (c : Char) (done : List Char) (hc : isupper c = true) :
    loopIteration (c :: done) 0 = .ok (tolower c :: done, -1) := by
  have hr := readAt_append [] c done
  have hw := writeAt_append [] c (tolower c) done
  simp only [List.nil_append, List.length_nil, Nat.cast_zero] at hr hw
  simp [loopIteration, insertSeparator, hr, hw, hc]

theorem loopIteration_upper_plain (q : List Char) (p c : Char) (done : List Char)
    (hc : isupper c = true) (hp : islower p = false) :
    loopIteration (q ++ p :: c :: done) ((q.length : Int) + 1)
      = .ok (q ++ p :: tolower c :: done, (q.length : Int)) := by
  have hne : (q.length : Int) + 1 ≠ 0 := by omega
  have hr := readAt_append (q ++ [p]) c done
  have hw := writeAt_append (q ++ [p]) c (tolower c) done
  have hrp := readAt_append q p (c :: done)
  simp only [List.append_assoc, List.singleton_append, List.length_append, List.length_singleton,
    Nat.cast_add, Nat.cast_one] at hr hw
  simp [loopIteration, insertSeparator, hr, hw, hrp, hc, hp, hne]

theorem loopIteration_upper_separator (q : List Char) (p c : Char) (done : List Char)
    (hc : isupper c = true) (hp : islower p = true) (hlen : (q.length : Int) + 2 ≤ INT_MAX) :
    loopIteration (q ++ p :: c :: done) ((q.length : Int) + 1)
      = .ok (q ++ p :: '_' :: tolower c :: done, (q.length : Int) + 1) := by
  have hne : (q.length : Int) + 1 ≠ 0 := by omega
  have hr := readAt_append (q ++ [p]) c done
  have hrp := readAt_append q p (c :: done)
  have hins := insertUnderscore_append (q ++ [p]) (c :: done)
  have hr2 := readAt_append (q ++ [p, '_']) c done
  have hw2 := writeAt_append (q ++ [p, '_']) c (tolower c) done
  have hinc : increment ((q.length : Int) + 1) = .ok ((q.length : Int) + 1 + 1) := by
    have : ¬ (INT_MAX < (q.length : Int) + 1 + 1) := by omega
    simp only [increment, if_neg this]
  simp only [List.append_assoc, List.singleton_append, List.length_append, List.length_singleton,
    List.cons_append, List.nil_append, List.length_cons, List.length_nil,
    Nat.cast_add, Nat.cast_one, Nat.cast_zero, zero_add, ← add_assoc] at hr hins hr2 hw2
  simp only [loopIteration, insertSeparator, hr, hc, if_true, if_pos hne, add_sub_cancel_right,
    hrp, hp, hins, hinc, hr2, hw2]

/-! ## The left-to-right pass, extended at the right end -/

theorem prevOf_concat (prev : Option Char) (q : List Char) (p : Char) :
    prevOf prev (q ++ [p]) = some p := by
  induction q generalizing prev with
  | nil => rfl
  | cons x q ih => simpa [prevOf] using ih (some x)

theorem toSnakeCaseFrom_concat (prev : Option Char) (q : List Char) (c : Char) :
    toSnakeCaseFrom prev (q ++ [c]) = toSnakeCaseFrom prev q ++ emit (prevOf prev q) c := by
  induction q generalizing prev with
  | nil => simp [toSnakeCaseFrom, prevOf]
  | cons x q ih => simp [toSnakeCaseFrom, prevOf, ih]

theorem emit_not_upper (prev : Option Char) {c : Char} (h : isupper c = false) :
    emit prev c = [c] := by
  simp [emit, h, tolower_of_not_upper h]

theorem toSnakeCase_concat_not_upper (q : List Char) {c : Char} (h : isupper c = false) :
    toSnakeCase (q ++ [c]) = toSnakeCase q ++ [c] := by
  rw [toSnakeCase, toSnakeCaseFrom_concat, emit_not_upper _ h, toSnakeCase]

theorem toSnakeCase_concat_concat (q : List Char) (p c : Char) :
    toSnakeCase (q ++ [p] ++ [c]) = toSnakeCase (q ++ [p]) ++ emit (some p) c := by
  rw [toSnakeCase, toSnakeCaseFrom_concat, prevOf_concat, toSnakeCase]

theorem emitAt_append_left (q : List Char) (c : Char) (i : Nat) (hi : i < q.length) :
    emitAt (q ++ [c]) i = emitAt q i := by
  simp only [emitAt, List.getElem?_append_left hi,
    List.getElem?_append_left (show i - 1 < q.length by omega)]

theorem prevOf_eq_getElem? (q : List Char) :
    (prevOf none q).any islower = (decide (0 < q.length) && (q[q.length - 1]?).any islower) := by
  rcases List.eq_nil_or_concat q with rfl | ⟨q1, p, hqe⟩
  · rfl
  · rw [List.concat_eq_append] at hqe
    subst hqe
    rw [prevOf_concat]
    have hg : (q1 ++ [p])[(q1 ++ [p]).length - 1]? = some p := by
      rw [List.length_append, List.length_singleton, Nat.add_sub_cancel,
        List.getElem?_append_right (le_refl _)]
      simp
    rw [hg]
    simp

theorem emitAt_length (q : List Char) (c : Char) :
    emitAt (q ++ [c]) q.length = emit (prevOf none q) c := by
  have hg : (q ++ [c])[q.length]? = some c := by
    rw [List.getElem?_append_right (le_refl _)]; simp
  have hp : (q ++ [c])[q.length - 1]? = if 0 < q.length then q[q.length - 1]? else some c := by
    split
    · rw [List.getElem?_append_left (by omega)]
    · have h0 : q.length = 0 := by omega
      rw [h0] at hg ⊢
      exact hg
  simp only [emitAt, hg, emit, prevOf_eq_getElem?, hp]
  by_cases h0 : 0 < q.length
  · simp [h0, Bool.and_assoc]
  · simp [h0]

theorem toSnakeCase_eq_positions (s : List Char) :
    toSnakeCase s = (List.range s.length).flatMap (emitAt s) := by
  induction s using List.reverseRecOn with
  | nil => rfl
  | append_singleton q c ih =>
    rw [toSnakeCase, toSnakeCaseFrom_concat, ← toSnakeCase, ih, List.length_append,
      List.length_singleton, List.range_succ, List.flatMap_append, List.flatMap_singleton,
      emitAt_length]
    congr 1
    apply List.flatMap_congr
    intro i hi
    rw [emitAt_append_left q c i (List.mem_range.mp hi)]

/-! ## The loop computes the left-to-right pass -/

theorem fixNamespaceNameLoop_spec (pre : List Char) :
    ∀ (done : List Char) (fuel : Nat), (pre.length : Int) ≤ INT_MAX →
      2 * pre.length + 1 ≤ fuel →
      fixNamespaceNameLoop fuel (pre ++ done) ((pre.length : Int) - 1)
        = .ok (toSnakeCase pre ++ done) := by
  induction pre using List.reverseRecOn with
  | nil =>
    intro done fuel _ hfuel
    obtain ⟨f, rfl⟩ : ∃ f, fuel = f + 1 := ⟨fuel - 1, by omega⟩
    simp [fixNamespaceNameLoop, toSnakeCase, toSnakeCaseFrom]
  | append_singleton q c ih =>
    intro done fuel hlen hfuel
    simp only [List.length_append, List.length_singleton, Nat.cast_add, Nat.cast_one] at hlen hfuel
    obtain ⟨f, rfl⟩ : ∃ f, fuel = f + 1 := ⟨fuel - 1, by omega⟩
    have hq : (q.length : Int) ≤ INT_MAX := by omega
    have h0 : (0 : Int) ≤ (q.length : Int) := by omega
    simp only [List.length_append, List.length_singleton, Nat.cast_add, Nat.cast_one,
      add_sub_cancel_right, List.append_assoc, List.singleton_append]
    rw [fixNamespaceNameLoop, if_pos h0]
    by_cases hc : isupper c = true
    · rcases List.eq_nil_or_concat q with rfl | ⟨q1, p, hqe⟩
      · have hit := loopIteration_upper_first c done hc
        have hrec := ih (tolower c :: done) f hq (by omega)
        simp only [List.nil_append, List.length_nil, Nat.cast_zero, zero_sub] at hit hrec ⊢
        rw [hit]
        simp only [hrec]
        simp [toSnakeCase, toSnakeCaseFrom, emit, hc]
      · rw [List.concat_eq_append] at hqe
        subst hqe
        simp only [List.length_append, List.length_singleton, Nat.cast_add, Nat.cast_one,
          List.append_assoc, List.singleton_append] at hlen hfuel hq ⊢
        by_cases hp : islower p = true
        · rw [loopIteration_upper_separator q1 p c done hc hp (by omega)]
          obtain ⟨g, rfl⟩ : ∃ g, f = g + 1 := ⟨f - 1, by omega⟩
          have h1 : (0 : Int) ≤ (q1.length : Int) + 1 := by omega
          have hit := loopIteration_not_upper (q1 ++ [p]) '_' (tolower c :: done)
            isupper_underscore
          have hrec := ih ('_' :: tolower c :: done) g (by
            simp only [List.length_append, List.length_singleton, Nat.cast_add, Nat.cast_one]
            exact hq) (by simp only [List.length_append, List.length_singleton]; omega)
          simp only [List.length_append, List.length_singleton, Nat.cast_add, Nat.cast_one,
            List.append_assoc, List.singleton_append] at hit hrec
          simp only []
          rw [fixNamespaceNameLoop, if_pos h1, hit]
          simp only [hrec]
          have := toSnakeCase_concat_concat q1 p c
          simp only [List.append_assoc, List.singleton_append] at this
          simp [this, emit, hc, hp]
        · simp only [Bool.not_eq_true] at hp
          rw [loopIteration_upper_plain q1 p c done hc hp]
          have hrec := ih (tolower c :: done) f (by
            simp only [List.length_append, List.length_singleton, Nat.cast_add, Nat.cast_one]
            exact hq) (by simp only [List.length_append, List.length_singleton]; omega)
          simp only [List.length_append, List.length_singleton, Nat.cast_add, Nat.cast_one,
            List.append_assoc, List.singleton_append, add_sub_cancel_right] at hrec
          simp only [hrec]
          have := toSnakeCase_concat_concat q1 p c
          simp only [List.append_assoc, List.singleton_append] at this
          simp [this, emit, hc, hp]
    · simp only [Bool.not_eq_true] at hc
      rw [loopIteration_not_upper q c done hc]
      simp only [ih (c :: done) f hq (by omega)]
      simp [toSnakeCase_concat_not_upper q hc]

theorem initialIndex_of_le (n : Nat) (h : (n : Int) ≤ INT_MAX) :
    initialIndex n = (n : Int) - 1 := by
  unfold INT_MAX at h
  unfold initialIndex toInt32
  split <;> omega

theorem fixNamespaceNameFuel_eq (s : List Char) (fuel : Nat) (hlen : (s.length : Int) ≤ INT_MAX)
    (hfuel : 2 * s.length + 1 ≤ fuel) :
    fixNamespaceNameFuel fuel s = .ok (toSnakeCase s) := by
  have h := fixNamespaceNameLoop_spec s [] fuel hlen hfuel
  rw [List.append_nil, List.append_nil] at h
  rw [fixNamespaceNameFuel, initialIndex_of_le _ hlen, h]

theorem fixNamespaceName_eq (s : List Char) (hlen : (s.length : Int) ≤ INT_MAX) :
    fixNamespaceName s = .ok (toSnakeCase s) :=
  fixNamespaceNameFuel_eq s _ hlen (le_refl _)

/-! ## Properties of the left-to-right pass -/

theorem mem_emit {prev : Option Char} {c x : Char} (h : x ∈ emit prev c) :
    x = '_' ∨ x = tolower c := by
  unfold emit at h
  split at h <;> simp at h <;> tauto

theorem mem_toSnakeCaseFrom {prev : Option Char} {s : List Char} {x : Char}
    (h : x ∈ toSnakeCaseFrom prev s) : x = '_' ∨ ∃ c ∈ s, x = tolower c := by
  induction s generalizing prev with
  | nil => simp [toSnakeCaseFrom] at h
  | cons c rest ih =>
    simp only [toSnakeCaseFrom, List.mem_append] at h
    rcases h with h | h
    · rcases mem_emit h with h | h
      · exact Or.inl h
      · exact Or.inr ⟨c, List.mem_cons_self _ _, h⟩
    · rcases ih h with h | ⟨d, hd, h⟩
      · exact Or.inl h
      · exact Or.inr ⟨d, List.mem_cons_of_mem _ hd, h⟩

theorem isupper_of_mem_toSnakeCase {s : List Char} {x : Char} (h : x ∈ toSnakeCase s) :
    isupper x = false := by
  rcases mem_toSnakeCaseFrom h with rfl | ⟨c, _, rfl⟩
  · exact isupper_underscore
  · exact isupper_tolower c

theorem toSnakeCaseFrom_of_no_upper (prev : Option Char) (s : List Char)
    (h : ∀ c ∈ s, isupper c = false) : toSnakeCaseFrom prev s = s := by
  induction s generalizing prev with
  | nil => rfl
  | cons c rest ih =>
    have hc := h c (List.mem_cons_self _ _)
    rw [toSnakeCaseFrom, emit_not_upper _ hc,
      ih (some c) (fun d hd => h d (List.mem_cons_of_mem _ hd))]
    rfl

theorem toSnakeCase_idem (s : List Char) : toSnakeCase (toSnakeCase s) = toSnakeCase s :=
  toSnakeCaseFrom_of_no_upper none _ (fun _ h => isupper_of_mem_toSnakeCase h)

theorem length_emit (prev : Option Char) (c : Char) :
    1 ≤ (emit prev c).length ∧ (emit prev c).length ≤ 2 := by
  unfold emit
  split <;> simp

theorem length_toSnakeCaseFrom (prev : Option Char) (s : List Char) :
    s.length ≤ (toSnakeCaseFrom prev s).length ∧
      (toSnakeCaseFrom prev s).length ≤ 2 * s.length := by
  induction s generalizing prev with
  | nil => simp [toSnakeCaseFrom]
  | cons c rest ih =>
    have h1 := length_emit prev c
    have h2 := ih (some c)
    simp only [toSnakeCaseFrom, List.length_append, List.length_cons]
    omega

/-! ## The matcher decides the declarative meaning -/

theorem nullable_of_matches_nil {r : Regex} {s : List Char} (h : Matches r s) (hs : s = []) :
    nullable r = true := by
  induction h with
  | eps => rfl
  | sym _ => simp at hs
  | seq _ _ iha ihb =>
    obtain ⟨h1, h2⟩ := List.append_eq_nil.mp hs
    simp [nullable, iha h1, ihb h2]
  | altL _ ih => simp [nullable, ih hs]
  | altR _ ih => simp [nullable, ih hs]
  | starNil => rfl
  | starCons _ _ _ _ => rfl
  | plus _ _ iha _ =>
    obtain ⟨h1, _⟩ := List.append_eq_nil.mp hs
    simp [nullable, iha h1]

theorem matches_nil_of_nullable {r : Regex} (h : nullable r = true) : Matches r [] := by
  induction r with
  | empty => simp [nullable] at h
  | eps => exact .eps
  | sym p => simp [nullable] at h
  | seq a b iha ihb =>
    simp only [nullable, Bool.and_eq_true] at h
    exact .seq (s := []) (t := []) (iha h.1) (ihb h.2)
  | alt a b iha ihb =>
    simp only [nullable, Bool.or_eq_true] at h
    rcases h with h | h
    · exact .altL (iha h)
    · exact .altR (ihb h)
  | star a _ => exact .starNil
  | plus a iha =>
    simp only [nullable] at h
    exact .plus (s := []) (t := []) (iha h) .starNil

theorem matches_cons_of_deriv {r : Regex} {c : Char} {s : List Char}
    (h : Matches (deriv r c) s) : Matches r (c :: s) := by
  induction r generalizing s with
  | empty => simp only [deriv] at h; cases h
  | eps => simp only [deriv] at h; cases h
  | sym p =>
    simp only [deriv] at h
    split at h
    · cases h; exact .sym (by assumption)
    · cases h
  | seq a b iha ihb =>
    simp only [deriv] at h
    split at h
    · rename_i hn
      cases h with
      | altL h =>
        cases h with
        | seq h1 h2 => exact .seq (iha h1) h2
      | altR h => exact .seq (s := []) (matches_nil_of_nullable hn) (ihb h)
    · cases h with
      | seq h1 h2 => exact .seq (iha h1) h2
  | alt a b iha ihb =>
    simp only [deriv] at h
    cases h with
    | altL h => exact .altL (iha h)
    | altR h => exact .altR (ihb h)
  | star a iha =>
    simp only [deriv] at h
    cases h with
    | seq h1 h2 => exact .starCons (iha h1) h2
  | plus a iha =>
    simp only [deriv] at h
    cases h with
    | seq h1 h2 => exact .plus (iha h1) h2

theorem deriv_of_matches_cons {r : Regex} {c : Char} {x : List Char} (h : Matches r x) :
    ∀ s, x = c :: s → Matches (deriv r c) s := by
  induction h with
  | eps => intro s hs; simp at hs
  | @sym p d hp =>
    intro s hs
    simp only [List.cons.injEq] at hs
    obtain ⟨rfl, rfl⟩ := hs
    simp only [deriv, hp, if_true]
    exact .eps
  | @seq a b s1 t1 h1 h2 iha ihb =>
    intro s hs
    cases s1 with
    | nil =>
      simp only [List.nil_append] at hs
      have hn := nullable_of_matches_nil h1 rfl
      simp only [deriv, hn, if_true]
      exact .altR (ihb s hs)
    | cons d s1 =>
      simp only [List.cons_append, List.cons.injEq] at hs
      obtain ⟨rfl, rfl⟩ := hs
      simp only [deriv]
      split
      · exact .altL (.seq (iha s1 rfl) h2)
      · exact .seq (iha s1 rfl) h2
  | altL _ ih => intro s hs; exact .altL (ih s hs)
  | altR _ ih => intro s hs; exact .altR (ih s hs)
  | starNil => intro s hs; simp at hs
  | @starCons a s1 t1 h1 h2 iha ihb =>
    intro s hs
    cases s1 with
    | nil => simp only [List.nil_append] at hs; exact ihb s hs
    | cons d s1 =>
      simp only [List.cons_append, List.cons.injEq] at hs
      obtain ⟨rfl, rfl⟩ := hs
      simp only [deriv]
      exact .seq (iha s1 rfl) h2
  | @plus a s1 t1 h1 h2 iha ihb =>
    intro s hs
    cases s1 with
    | nil =>
      simp only [List.nil_append] at hs
      have := ihb s hs
      simpa only [deriv] using this
    | cons d s1 =>
      simp only [List.cons_append, List.cons.injEq] at hs
      obtain ⟨rfl, rfl⟩ := hs
      simp only [deriv]
      exact .seq (iha s1 rfl) h2

theorem regex_match_iff (s : List Char) (r : Regex) :
    regex_match s r = true ↔ Matches r s := by
  induction s generalizing r with
  | nil => exact ⟨matches_nil_of_nullable, fun h => nullable_of_matches_nil h rfl⟩
  | cons c s ih =>
    have h := ih (deriv r c)
    simp only [regex_match, List.foldl_cons] at h ⊢
    exact h.trans ⟨matches_cons_of_deriv, fun h => deriv_of_matches_cons h s rfl⟩

/-! ## Shape of the strings matched by the constructs in use -/

theorem matches_sym_iff {p : Char → Bool} {s : List Char} :
    Matches (.sym p) s ↔ ∃ c, s = [c] ∧ p c = true := by
  constructor
  · intro h; cases h with
    | sym hp => exact ⟨_, rfl, hp⟩
  · rintro ⟨c, rfl, hp⟩; exact .sym hp

theorem matches_seq_iff {a b : Regex} {s : List Char} :
    Matches (.seq a b) s ↔ ∃ s1 s2, s = s1 ++ s2 ∧ Matches a s1 ∧ Matches b s2 := by
  constructor
  · intro h; cases h with
    | seq h1 h2 => exact ⟨_, _, rfl, h1, h2⟩
  · rintro ⟨s1, s2, rfl, h1, h2⟩; exact .seq h1 h2

theorem matches_alt_iff {a b : Regex} {s : List Char} :
    Matches (.alt a b) s ↔ Matches a s ∨ Matches b s := by
  constructor
  · intro h; cases h with
    | altL h => exact Or.inl h
    | altR h => exact Or.inr h
  · rintro (h | h)
    · exact .altL h
    · exact .altR h

theorem matches_plus_iff {a : Regex} {s : List Char} :
    Matches (.plus a) s ↔ ∃ s1 s2, s = s1 ++ s2 ∧ Matches a s1 ∧ Matches (.star a) s2 := by
  constructor
  · intro h; cases h with
    | plus h1 h2 => exact ⟨_, _, rfl, h1, h2⟩
  · rintro ⟨s1, s2, rfl, h1, h2⟩; exact .plus h1 h2

theorem all_of_matches_star_sym {p : Char → Bool} {r : Regex} {s : List Char}
    (h : Matches r s) (hr : r = .star (.sym p)) : ∀ c ∈ s, p c = true := by
  induction h with
  | eps => cases hr
  | sym _ => cases hr
  | seq _ _ _ _ => cases hr
  | altL _ _ => cases hr
  | altR _ _ => cases hr
  | starNil => intro c hc; simp at hc
  | starCons h1 _ _ ih2 =>
    cases hr
    obtain ⟨d, rfl, hd⟩ := matches_sym_iff.mp h1
    intro c hc
    simp only [List.singleton_append, List.mem_cons] at hc
    rcases hc with rfl | hc
    · exact hd
    · exact ih2 rfl c hc
  | plus _ _ _ _ => cases hr

theorem matches_star_sym_iff {p : Char → Bool} {s : List Char} :
    Matches (.star (.sym p)) s ↔ ∀ c ∈ s, p c = true := by
  constructor
  · intro h; exact all_of_matches_star_sym h rfl
  · intro h
    induction s with
    | nil => exact .starNil
    | cons c s ih =>
      exact .starCons (s := [c]) (.sym (h c (List.mem_cons_self _ _)))
        (ih (fun d hd => h d (List.mem_cons_of_mem _ hd)))

theorem matches_lit_iff {w s : List Char} : Matches (lit w) s ↔ s = w := by
  induction w generalizing s with
  | nil =>
    constructor
    · intro h; cases h; rfl
    · rintro rfl; exact .eps
  | cons c w ih =>
    simp only [lit, matches_seq_iff, chr, matches_sym_iff, ih]
    constructor
    · rintro ⟨s1, s2, rfl, ⟨d, rfl, hd⟩, rfl⟩
      simp only [beq_iff_eq] at hd
      simp [hd]
    · rintro rfl
      exact ⟨[c], w, rfl, ⟨c, rfl, by simp⟩, rfl⟩

theorem toNat_injective {c d : Char} (h : c.toNat = d.toNat) : c = d := by
  rw [← Char.ofNat_toNat c, ← Char.ofNat_toNat d, h]

theorem inRanges_lower (c : Char) : inRanges [('a', 'z')] c = islower c := by
  simp [inRanges, islower]

theorem inRanges_name (c : Char) :
    inRanges [('a', 'z'), ('_', '_'), ('0', '9')] c = true ↔
      (islower c = true ∨ isdigit c = true ∨ c = '_') := by
  have h1 : ('a' : Char).toNat = 97 := rfl
  have h2 : ('z' : Char).toNat = 122 := rfl
  have h3 : ('_' : Char).toNat = 95 := rfl
  have h4 : ('0' : Char).toNat = 48 := rfl
  have h5 : ('9' : Char).toNat = 57 := rfl
  simp only [inRanges, islower, isdigit, List.any_cons, List.any_nil, Bool.or_false,
    Bool.or_eq_true, Bool.and_eq_true, decide_eq_true_eq, h1, h2, h3, h4, h5]
  constructor
  · rintro (h | h | h)
    · exact Or.inl h
    · exact Or.inr (Or.inr (toNat_injective (by rw [h3]; omega)))
    · exact Or.inr (Or.inl h)
  · rintro (h | h | h)
    · exact Or.inl h
    · exact Or.inr (Or.inr h)
    · subst h; exact Or.inr (Or.inl (by rw [h3]; omega))

/-! ## The two patterns of the rule -/

theorem valid_name_iff (s : List Char) :
    regex_match s VALID_NAME_REGEX = true ↔
      2 ≤ s.length ∧ (∃ c, s.head? = some c ∧ islower c = true) ∧
        ∀ c ∈ s, islower c = true ∨ isdigit c = true ∨ c = '_' := by
  rw [regex_match_iff, VALID_NAME_REGEX, matches_seq_iff]
  simp only [bracket, matches_sym_iff, matches_plus_iff, matches_star_sym_iff, inRanges_lower,
    inRanges_name]
  constructor
  · rintro ⟨s1, s2, rfl, ⟨c, rfl, hc⟩, t1, t2, rfl, ⟨d, rfl, hd⟩, ht⟩
    refine ⟨by simp, ⟨c, rfl, hc⟩, ?_⟩
    intro x hx
    simp only [List.singleton_append, List.mem_cons] at hx
    rcases hx with rfl | rfl | hx
    · exact Or.inl hc
    · exact hd
    · exact ht x hx
  · rintro ⟨hlen, ⟨c, hhead, hc⟩, hall⟩
    match s, hlen, hhead, hall with
    | x :: d :: rest, _, hhead, hall =>
      simp only [List.head?_cons, Option.some.injEq] at hhead
      subst hhead
      refine ⟨[x], d :: rest, rfl, ⟨x, rfl, hc⟩, [d], rest, rfl, ⟨d, rfl, ?_⟩, ?_⟩
      · exact hall d (by simp)
      · intro y hy; exact hall y (by simp [hy])

theorem not_name_char_of_upper {c : Char} (h : isupper c = true) :
    ¬ (islower c = true ∨ isdigit c = true ∨ c = '_') := by
  simp only [isupper, Bool.and_eq_true, decide_eq_true_eq] at h
  rintro (h1 | h1 | h1)
  · simp only [islower, Bool.and_eq_true, decide_eq_true_eq] at h1; omega
  · simp only [isdigit, Bool.and_eq_true, decide_eq_true_eq] at h1; omega
  · subst h1
    have h3 : ('_' : Char).toNat = 95 := rfl
    omega

theorem dot_of_mem_lit {w : List Char} (hw : ∀ c ∈ w, (c != '\n' && c != '\r') = true)
    {a b : List Char} (ha : ∀ c ∈ a, (c != '\n' && c != '\r') = true)
    (hb : ∀ c ∈ b, (c != '\n' && c != '\r') = true) :
    ∀ c ∈ a ++ (w ++ b), (c != '\n' && c != '\r') = true := by
  intro c hc
  simp only [List.mem_append] at hc
  rcases hc with hc | hc | hc
  · exact ha c hc
  · exact hw c hc
  · exact hb c hc

theorem matches_anywhere_iff (w s : List Char)
    (hw : ∀ c ∈ w, (c != '\n' && c != '\r') = true) :
    Matches (.seq (.star dot) (.seq (lit w) (.star dot))) s ↔
      (∀ c ∈ s, c ≠ '\n' ∧ c ≠ '\r') ∧ w <:+: s := by
  simp only [matches_seq_iff, dot, matches_star_sym_iff, matches_lit_iff]
  constructor
  · rintro ⟨a, t, rfl, ha, m, b, rfl, rfl, hb⟩
    refine ⟨?_, ⟨a, b, by simp⟩⟩
    intro c hc
    have := dot_of_mem_lit hw ha hb c hc
    simpa using this
  · rintro ⟨hall, a, b, rfl⟩
    have hall2 : ∀ c ∈ a ++ w ++ b, (c != '\n' && c != '\r') = true := by
      intro c hc; simpa using hall c hc
    refine ⟨a, w ++ b, by simp, ?_, w, b, rfl, rfl, ?_⟩
    · intro c hc; exact hall2 c (by simp [hc])
    · intro c hc; exact hall2 c (by simp [hc])

theorem in_scope_iff (p : List Char) :
    isOutsideOfTargetScope p = false ↔
      (∀ c ∈ p, c ≠ '\n' ∧ c ≠ '\r') ∧
        (['/', 'O', '2', '/'] <:+: p ∨ ['/', 't', 'e', 's', 't', '/'] <:+: p) := by
  rw [isOutsideOfTargetScope, Bool.not_eq_false_eq_eq_true, regex_match_iff, VALID_PATH_REGEX,
    matches_alt_iff, matches_anywhere_iff _ _ (by decide), matches_anywhere_iff _ _ (by decide)]
  tauto

/-! ## Segments of a path -/

theorem splitOn_slash_cons (c : Char) (hc : c ≠ '/') (t : List Char) :
    (c :: t).splitOn '/' = (t.splitOn '/').modifyHead (List.cons c) := by
  have : ((c == '/') = true) = False := by simp [hc]
  simp only [List.splitOn, List.splitOnP_cons, this, if_false]

theorem splitOn_slash_slash (t : List Char) :
    ('/' :: t).splitOn '/' = [] :: t.splitOn '/' := by
  simp [List.splitOn, List.splitOnP_cons]

theorem splitOn_ne_nil (t : List Char) : t.splitOn '/' ≠ [] := List.splitOnP_ne_nil _ _

theorem first_segment_iff (w t : List Char) (hw : '/' ∉ w) :
    w ++ ['/'] <+: t ↔ ∃ rest, t.splitOn '/' = w :: rest ∧ rest ≠ [] := by
  constructor
  · rintro ⟨b, rfl⟩
    refine ⟨b.splitOn '/', ?_, splitOn_ne_nil b⟩
    have := List.splitOnP_first (fun x => x == '/') w (fun x hx => by
      simp only [beq_iff_eq]; rintro rfl; exact hw hx) '/' (by simp) b
    simpa [List.splitOn] using this
  · rintro ⟨rest, h, hrest⟩
    induction t generalizing w with
    | nil => simp at h; exact absurd h.2 hrest
    | cons c t ih =>
      by_cases hc : c = '/'
      · subst hc
        rw [splitOn_slash_slash] at h
        simp only [List.cons.injEq] at h
        rw [← h.1]
        exact ⟨t, rfl⟩
      · rw [splitOn_slash_cons c hc] at h
        cases hS : t.splitOn '/' with
        | nil => exact absurd hS (splitOn_ne_nil t)
        | cons hd r =>
          rw [hS] at h
          simp only [List.modifyHead_cons, List.cons.injEq] at h
          obtain ⟨rfl, rfl⟩ := h
          have hw2 : '/' ∉ hd := fun hx => hw (List.mem_cons_of_mem _ hx)
          obtain ⟨b, hb⟩ := ih hd hw2 hS
          exact ⟨b, by simp [← hb]⟩

theorem mem_dropLast_iff {α : Type} (w x : α) (L : List α) :
    w ∈ (x :: L).dropLast ↔ (w = x ∧ L ≠ []) ∨ w ∈ L.dropLast := by
  cases L with
  | nil => simp
  | cons y L => simp [List.dropLast]

theorem inner_segment_iff (w s : List Char) (hw : '/' ∉ w) :
    '/' :: (w ++ ['/']) <:+: s ↔ w ∈ ((s.splitOn '/').tail).dropLast := by
  induction s with
  | nil => simp
  | cons c t ih =>
    rw [List.infix_cons_iff, ih]
    by_cases hc : c = '/'
    · subst hc
      rw [splitOn_slash_slash, List.tail_cons]
      cases hS : t.splitOn '/' with
      | nil => exact absurd hS (splitOn_ne_nil t)
      | cons hd r =>
        rw [mem_dropLast_iff, List.tail_cons, List.prefix_cons_inj, first_segment_iff w t hw, hS]
        simp only [List.cons.injEq]
        constructor
        · rintro (⟨rest, ⟨rfl, rfl⟩, h⟩ | h)
          · exact Or.inl ⟨rfl, h⟩
          · exact Or.inr h
        · rintro (⟨rfl, h⟩ | h)
          · exact Or.inl ⟨r, ⟨rfl, rfl⟩, h⟩
          · exact Or.inr h
    · rw [splitOn_slash_cons c hc]
      have hnp : ¬ ('/' :: (w ++ ['/']) <+: c :: t) := by
        rintro ⟨b, hb⟩
        simp only [List.cons_append, List.cons.injEq] at hb
        exact hc hb.1.symm
      cases hS : t.splitOn '/' with
      | nil => exact absurd hS (splitOn_ne_nil t)
      | cons hd r => simp [hnp]
theorem hasInnerDirectoryComponent_iff (p : List Char) :
    hasInnerDirectoryComponent p = true ↔
      (['/', 'O', '2', '/'] <:+: p ∨ ['/', 't', 'e', 's', 't', '/'] <:+: p) := by
  have h1 := inner_segment_iff ['O', '2'] p (by decide)
  have h2 := inner_segment_iff ['t', 'e', 's', 't'] p (by decide)
  simp only [List.cons_append, List.nil_append] at h1 h2
  rw [h1, h2]
  simp only [hasInnerDirectoryComponent, List.any_eq_true, Bool.or_eq_true, beq_iff_eq]
  constructor
  · rintro ⟨seg, hseg, rfl | rfl⟩
    · exact Or.inl hseg
    · exact Or.inr hseg
  · rintro (h | h)
    · exact ⟨_, h, Or.inl rfl⟩
    · exact ⟨_, h, Or.inr rfl⟩

theorem in_scope_iff_segments (p : List Char) :
    isOutsideOfTargetScope p = false ↔
      (∀ c ∈ p, c ≠ '\n' ∧ c ≠ '\r') ∧ hasInnerDirectoryComponent p = true := by
  rw [in_scope_iff, hasInnerDirectoryComponent_iff]

/-! ## The name matcher of `registerMatchers` -/

theorem qualified_ends_in_colons (encl : List (List Char)) :
    ∃ pre, [':', ':'] ++ (encl.map (fun e => e ++ [':', ':'])).flatten = pre ++ [':', ':'] := by
  induction encl with
  | nil => exact ⟨[], rfl⟩
  | cons e es ih =>
    obtain ⟨pre, hpre⟩ := ih
    refine ⟨[':', ':'] ++ e ++ pre, ?_⟩
    simp only [List.map_cons, List.flatten_cons, List.append_assoc]
    rw [← hpre]

theorem full_name_split (d : NamespaceDecl) :
    ∃ pre, [':', ':'] ++ getQualifiedNameAsString d = pre ++ ([':', ':'] ++ d.name) := by
  obtain ⟨pre, hpre⟩ := qualified_ends_in_colons d.enclosing
  refine ⟨pre, ?_⟩
  rw [getQualifiedNameAsString, ← List.append_assoc, hpre, List.append_assoc]

theorem matches_qualified_iff (t : List Char) :
    regex_match t (.seq (lit [':', ':']) VALID_NAME_REGEX) = true ↔
      ∃ w, t = [':', ':'] ++ w ∧ regex_match w VALID_NAME_REGEX = true := by
  rw [regex_match_iff, matches_seq_iff]
  simp only [matches_lit_iff, regex_match_iff]
  constructor
  · rintro ⟨s1, s2, rfl, rfl, h⟩; exact ⟨s2, rfl, h⟩
  · rintro ⟨w, rfl, h⟩; exact ⟨_, w, rfl, rfl, h⟩

theorem validNameMatch_iff (d : NamespaceDecl) :
    validNameMatch d = true ↔
      ∃ a w, [':', ':'] ++ getQualifiedNameAsString d = a ++ ([':', ':'] ++ w) ∧
        regex_match w VALID_NAME_REGEX = true := by
  simp only [validNameMatch, matchesNameAtEnd, List.any_eq_true, List.mem_tails,
    matches_qualified_iff]
  constructor
  · rintro ⟨t, ⟨a, ha⟩, w, rfl, hw⟩; exact ⟨a, w, ha.symm, hw⟩
  · rintro ⟨a, w, h, hw⟩; exact ⟨_, ⟨a, h.symm⟩, w, rfl, hw⟩

theorem validNameMatch_of_valid (d : NamespaceDecl)
    (h : regex_match d.name VALID_NAME_REGEX = true) : validNameMatch d = true := by
  obtain ⟨pre, hpre⟩ := full_name_split d
  exact (validNameMatch_iff d).mpr ⟨pre, d.name, hpre, h⟩

theorem tail_after_last {x : Char} {a b w n : List Char} (h : a ++ x :: w = b ++ x :: n)
    (hw : x ∉ w) (hn : x ∉ n) : w = n := by
  rcases List.append_eq_append_iff.mp h with ⟨a1, _, h1⟩ | ⟨b1, _, h1⟩
  · cases a1 with
    | nil => simpa using h1
    | cons y a2 =>
      simp only [List.cons_append, List.cons.injEq] at h1
      exact absurd (by rw [h1.2]; simp) hw
  · cases b1 with
    | nil => simpa using h1.symm
    | cons y b2 =>
      simp only [List.cons_append, List.cons.injEq] at h1
      exact absurd (by rw [h1.2]; simp) hn

theorem colon_not_in_valid {w : List Char} (h : regex_match w VALID_NAME_REGEX = true) :
    ':' ∉ w := by
  intro hmem
  have h3 : (':' : Char).toNat = 58 := rfl
  rcases ((valid_name_iff w).mp h).2.2 ':' hmem with h1 | h1 | h1
  · simp only [islower, Bool.and_eq_true, decide_eq_true_eq] at h1; omega
  · simp only [isdigit, Bool.and_eq_true, decide_eq_true_eq] at h1; omega
  · exact absurd h1 (by decide)

theorem valid_of_validNameMatch (d : NamespaceDecl) (h : validNameMatch d = true)
    (hident : ':' ∉ d.name) : regex_match d.name VALID_NAME_REGEX = true := by
  obtain ⟨a, w, hsplit, hw⟩ := (validNameMatch_iff d).mp h
  obtain ⟨pre, hpre⟩ := full_name_split d
  rw [hpre] at hsplit
  have h2 : (pre ++ [':']) ++ ':' :: d.name = (a ++ [':']) ++ ':' :: w := by
    simpa using hsplit
  have := tail_after_last h2 hident (colon_not_in_valid hw)
  rw [this]; exact hw

theorem validNameMatch_eq (d : NamespaceDecl) (hident : ':' ∉ d.name) :
    validNameMatch d = regex_match d.name VALID_NAME_REGEX := by
  cases h : regex_match d.name VALID_NAME_REGEX with
  | true => exact validNameMatch_of_valid d h
  | false =>
    cases h2 : validNameMatch d with
    | false => rfl
    | true => rw [valid_of_validNameMatch d h2 hident] at h; cases h

/-! ## The renamer outside and at the edge of the `int` range -/

theorem fixNamespaceName_of_wrapped (s : List Char) (h1 : 2147483648 < s.length)
    (h2 : s.length ≤ 4294967296) : fixNamespaceName s = .ok s := by
  have hi : ¬ (0 ≤ initialIndex s.length) := by
    unfold initialIndex toInt32
    split <;> omega
  rw [fixNamespaceName, fixNamespaceNameFuel, fixNamespaceNameLoop, if_neg hi]

theorem readAt_of_lt (y : List Char) (k : Nat) (hk : k < y.length) :
    readAt y (k : Int) = .ok (y.get ⟨k, hk⟩) := by
  have h : ¬ ((k : Int) < 0) := by omega
  have hg : y[k]? = some (y.get ⟨k, hk⟩) := by
    rw [List.getElem?_eq_getElem hk]; rfl
  simp only [readAt, if_neg h, Int.toNat_ofNat, hg]

theorem fixNamespaceNameLoop_of_prefix_no_upper (y : List Char) (k : Nat) :
    ∀ fuel, k < y.length → (∀ j, j ≤ k → ∀ c, y[j]? = some c → isupper c = false) →
      k + 2 ≤ fuel → fixNamespaceNameLoop fuel y (k : Int) = .ok y := by
  induction k with
  | zero =>
    intro fuel hk hy hfuel
    obtain ⟨f, rfl⟩ : ∃ f, fuel = f + 1 + 1 := ⟨fuel - 2, by omega⟩
    have hc := hy 0 (le_refl _) _ (List.getElem?_eq_getElem hk)
    have hr := readAt_of_lt y 0 hk
    have hneg : ¬ ((0 : Int) ≤ 0 - 1) := by omega
    simp only [Nat.cast_zero] at hr ⊢
    rw [fixNamespaceNameLoop, if_pos (le_refl _)]
    simp only [loopIteration, hr, List.get_eq_getElem, hc, Bool.false_eq_true, if_false]
    rw [fixNamespaceNameLoop, if_neg hneg]
  | succ k ih =>
    intro fuel hk hy hfuel
    obtain ⟨f, rfl⟩ : ∃ f, fuel = f + 1 := ⟨fuel - 1, by omega⟩
    have hc := hy (k + 1) (le_refl _) _ (List.getElem?_eq_getElem hk)
    have hr := readAt_of_lt y (k + 1) hk
    have h0 : (0 : Int) ≤ ((k + 1 : Nat) : Int) := by omega
    have hsub : ((k + 1 : Nat) : Int) - 1 = (k : Int) := by omega
    rw [fixNamespaceNameLoop, if_pos h0]
    simp only [loopIteration, hr, List.get_eq_getElem, hc, Bool.false_eq_true, if_false, hsub]
    exact ih f (by omega) (fun j hj c hjc => hy j (by omega) c hjc) (by omega)

theorem initialIndex_lt (n : Nat) : initialIndex n < (n : Int) := by
  unfold initialIndex toInt32
  split <;> omega

theorem fixNamespaceName_of_prefix_no_upper (P D : List Char)
    (hP : ∀ c ∈ P, isupper c = false)
    (hidx : initialIndex (P ++ D).length < (P.length : Int)) :
    fixNamespaceName (P ++ D) = .ok (P ++ D) := by
  rw [fixNamespaceName, fixNamespaceNameFuel]
  by_cases hi : 0 ≤ initialIndex (P ++ D).length
  · obtain ⟨k, hk⟩ : ∃ k : Nat, initialIndex (P ++ D).length = (k : Int) :=
      ⟨(initialIndex (P ++ D).length).toNat, (Int.toNat_of_nonneg hi).symm⟩
    rw [hk] at hidx ⊢
    have hkP : k < P.length := by omega
    have hl := List.length_append P D
    refine fixNamespaceNameLoop_of_prefix_no_upper (P ++ D) k _ ?_ ?_ (by omega)
    · omega
    · intro j hj c hjc
      rw [List.getElem?_append_left (by omega)] at hjc
      exact hP c (List.getElem?_mem hjc)
  · rw [fixNamespaceNameLoop, if_neg hi]

theorem fixNamespaceName_of_no_upper (y : List Char) (hy : ∀ c ∈ y, isupper c = false) :
    fixNamespaceName y = .ok y := by
  have h := fixNamespaceName_of_prefix_no_upper y [] hy (by
    rw [List.append_nil]; exact initialIndex_lt _)
  rwa [List.append_nil] at h

theorem initialIndex_le_max (n : Nat) : initialIndex n ≤ 2147483647 := by
  unfold initialIndex toInt32
  split <;> omega

theorem loopIteration_upper_overflow (q : List Char) (p c : Char) (done : List Char)
    (hc : isupper c = true) (hp : islower p = true) (hlen : (q.length : Int) + 1 = INT_MAX) :
    loopIteration (q ++ p :: c :: done) ((q.length : Int) + 1) = .error .intOverflow := by
  have hne : (q.length : Int) + 1 ≠ 0 := by omega
  have hr := readAt_append (q ++ [p]) c done
  have hrp := readAt_append q p (c :: done)
  have hins := insertUnderscore_append (q ++ [p]) (c :: done)
  have hinc : increment ((q.length : Int) + 1) = .error .intOverflow := by
    have : INT_MAX < (q.length : Int) + 1 + 1 := by omega
    simp only [increment, if_pos this]
  simp only [List.append_assoc, List.singleton_append, List.length_append, List.length_singleton,
    Nat.cast_add, Nat.cast_one] at hr hins
  simp only [loopIteration, insertSeparator, hr, hc, if_true, if_pos hne, add_sub_cancel_right,
    hrp, hp, hins, hinc]

theorem fixNamespaceName_cases (x : List Char) (r : Except Fault (List Char))
    (h : fixNamespaceName x = r) :
    r = .error .intOverflow ∨
      ∃ P D, r = .ok (P ++ D) ∧ (∀ c ∈ P, isupper c = false) ∧
        initialIndex (P ++ D).length < (P.length : Int) := by
  rw [fixNamespaceName, fixNamespaceNameFuel] at h
  by_cases hi : 0 ≤ initialIndex x.length
  · obtain ⟨k, hk⟩ : ∃ k : Nat, initialIndex x.length = (k : Int) :=
      ⟨(initialIndex x.length).toNat, (Int.toNat_of_nonneg hi).symm⟩
    have hlt := initialIndex_lt x.length
    have hmax := initialIndex_le_max x.length
    rw [hk] at hlt hmax
    obtain ⟨pre, done, rfl, hpre⟩ : ∃ pre done, x = pre ++ done ∧ pre.length = k + 1 :=
      ⟨x.take (k + 1), x.drop (k + 1), (List.take_append_drop _ _).symm, by
        rw [List.length_take]; omega⟩
    have hl := List.length_append pre done
    by_cases hfit : (pre.length : Int) ≤ INT_MAX
    · have hspec := fixNamespaceNameLoop_spec pre done (2 * (pre ++ done).length + 1) hfit
        (by omega)
      have hkk : (k : Int) = (pre.length : Int) - 1 := by omega
      rw [hk, hkk, hspec] at h
      subst h
      refine Or.inr ⟨toSnakeCase pre, done, rfl, fun _ hc => isupper_of_mem_toSnakeCase hc, ?_⟩
      have hb := length_toSnakeCaseFrom none pre
      have hl2 := List.length_append (toSnakeCase pre) done
      rw [toSnakeCase] at hl2 ⊢
      rw [hl2]
      rw [hl] at hk
      unfold INT_MAX at hfit
      unfold initialIndex toInt32 at hk ⊢
      split at hk <;> split <;> omega
    · unfold INT_MAX at hfit
      rcases List.eq_nil_or_concat pre with rfl | ⟨q, c, hqe⟩
      · simp at hpre
      rw [List.concat_eq_append] at hqe
      subst hqe
      simp only [List.length_append, List.length_singleton, Nat.cast_add, Nat.cast_one]
        at hfit hpre hl
      have hqk : (k : Int) = (q.length : Int) := by omega
      have h0 : (0 : Int) ≤ (q.length : Int) := by omega
      have hqmax : (q.length : Int) ≤ INT_MAX := by unfold INT_MAX; omega
      have hbig : ∀ (P : List Char), q.length + 1 ≤ P.length →
          ∀ n, initialIndex n < (P.length : Int) := by
        intro P hP n
        have := initialIndex_le_max n
        omega
      obtain ⟨F, hF⟩ : ∃ F, 2 * (q ++ [c] ++ done).length = F := ⟨_, rfl⟩
      rw [hk, hqk, hF, fixNamespaceNameLoop, if_pos h0] at h
      simp only [List.append_assoc, List.singleton_append, List.length_append,
        List.length_singleton, List.length_cons] at h hF
      by_cases hc : isupper c = true
      · rcases List.eq_nil_or_concat q with rfl | ⟨q1, p, hqe⟩
        · simp at hpre; omega
        rw [List.concat_eq_append] at hqe
        subst hqe
        simp only [List.length_append, List.length_singleton, Nat.cast_add, Nat.cast_one,
          List.append_assoc, List.singleton_append] at h hfit hpre hqk h0 hqmax hl hF
        by_cases hp : islower p = true
        · rw [loopIteration_upper_overflow q1 p c done hc hp (by unfold INT_MAX; omega)] at h
          exact Or.inl h.symm
        · simp only [Bool.not_eq_true] at hp
          rw [loopIteration_upper_plain q1 p c done hc hp] at h
          have hspec := fixNamespaceNameLoop_spec (q1 ++ [p]) (tolower c :: done) F (by
              simp only [List.length_append, List.length_singleton, Nat.cast_add, Nat.cast_one]
              exact hqmax) (by simp only [List.length_append, List.length_singleton]; omega)
          simp only [List.length_append, List.length_singleton, Nat.cast_add, Nat.cast_one,
            List.append_assoc, List.singleton_append, add_sub_cancel_right] at hspec
          simp only [hspec] at h
          subst h
          refine Or.inr ⟨toSnakeCase (q1 ++ [p]) ++ [tolower c], done, by simp, ?_, ?_⟩
          · intro d hd
            rcases List.mem_append.mp hd with hd | hd
            · exact isupper_of_mem_toSnakeCase hd
            · simp only [List.mem_singleton] at hd
              subst hd; exact isupper_tolower c
          · apply hbig
            have hb := length_toSnakeCaseFrom none (q1 ++ [p])
            simp only [List.length_append, List.length_singleton, toSnakeCase] at hb ⊢
            omega
      · simp only [Bool.not_eq_true] at hc
        rw [loopIteration_not_upper q c done hc] at h
        have hspec := fixNamespaceNameLoop_spec q (c :: done) F hqmax (by omega)
        simp only [hspec] at h
        subst h
        refine Or.inr ⟨toSnakeCase q ++ [c], done, by simp, ?_, ?_⟩
        · intro d hd
          rcases List.mem_append.mp hd with hd | hd
          · exact isupper_of_mem_toSnakeCase hd
          · simp only [List.mem_singleton] at hd
            subst hd; exact hc
        · apply hbig
          have hb := length_toSnakeCaseFrom none q
          simp only [List.length_append, List.length_singleton, toSnakeCase] at hb ⊢
          omega
  · rw [fixNamespaceNameLoop, if_neg hi] at h
    subst h
    exact Or.inr ⟨[], x, rfl, fun _ hc => absurd hc (List.not_mem_nil _), by
      simp only [List.length_nil, Nat.cast_zero, List.nil_append]; omega⟩

theorem fixNamespaceName_returns_or_overflows (x : List Char) :
    (∃ y, fixNamespaceName x = .ok y) ∨ fixNamespaceName x = .error .intOverflow := by
  rcases fixNamespaceName_cases x _ rfl with h | ⟨P, D, h, _, _⟩
  · exact Or.inr h
  · exact Or.inl ⟨_, h⟩

theorem fixNamespaceName_fixed_point (x y : List Char) (h : fixNamespaceName x = .ok y) :
    fixNamespaceName y = .ok y := by
  rcases fixNamespaceName_cases x _ h with h1 | ⟨P, D, h1, hP, hidx⟩
  · cases h1
  · simp only [Except.ok.injEq] at h1
    subst h1
    exact fixNamespaceName_of_prefix_no_upper P D hP hidx

/-! ## The rule on one node -/

theorem check_namespaceDecl (d : NamespaceDecl) :
    check { namespaceDecl := some d, namespaceUsage := none, usingNamespace := none } =
      if isOutsideOfTargetScope d.file = true then .ok []
      else match fixNamespaceName d.name with
        | .error e => .error e
        | .ok newName => .ok [⟨d.location, message, d, d.location, newName⟩] := by
  simp only [check]
  split
  · rfl
  · cases fixNamespaceName d.name <;> rfl

theorem check_namespaceUsage (l : NestedNameSpecifierLoc) (ns : NamespaceDecl)
    (hns : l.asNamespace = some ns) :
    check { namespaceDecl := none, namespaceUsage := some l, usingNamespace := none } =
      if isOutsideOfTargetScope ns.file = true then .ok []
      else match fixNamespaceName ns.name with
        | .error e => .error e
        | .ok newName => .ok [⟨l.localBeginLoc, message, ns, l.localBeginLoc, newName⟩] := by
  simp only [check, checkNamespaceUsage, hns]
  split
  · rfl
  · cases fixNamespaceName ns.name <;> rfl

theorem check_usingNamespace (u : UsingDirectiveDecl) :
    check { namespaceDecl := none, namespaceUsage := none, usingNamespace := some u } =
      if isOutsideOfTargetScope u.nominatedNamespace.file = true then .ok []
      else if regex_match u.nominatedNamespace.name VALID_NAME_REGEX = true then .ok []
      else match fixNamespaceName u.nominatedNamespace.name with
        | .error e => .error e
        | .ok newName => .ok [⟨u.location, message, u.nominatedNamespace, u.location, newName⟩] := by
  simp only [check, checkNamespaceUsage, checkUsingNamespace]
  split
  · rfl
  · split
    · rfl
    · cases fixNamespaceName u.nominatedNamespace.name <;> rfl

theorem runOnNode_namespaceDecl (d : NamespaceDecl) :
    runOnNode (.namespaceDecl d) =
      if (!validNameMatch d && !d.anonymous) = true then
        check { namespaceDecl := some d, namespaceUsage := none, usingNamespace := none }
      else .ok [] := by
  by_cases hm : (!validNameMatch d && !d.anonymous) = true
  · simp only [runOnNode, registerMatchers, List.foldl_cons, List.foldl_nil, namespaceDeclMatcher,
      namespaceUsageMatcher, usingNamespaceMatcher, hm, if_true]
    cases check { namespaceDecl := some d, namespaceUsage := none, usingNamespace := none } <;> rfl
  · simp only [runOnNode, registerMatchers, List.foldl_cons, List.foldl_nil, namespaceDeclMatcher,
      namespaceUsageMatcher, usingNamespaceMatcher, hm]
    rfl

theorem runOnNode_namespaceUsage (l : NestedNameSpecifierLoc) (ns : NamespaceDecl)
    (hns : l.asNamespace = some ns) :
    runOnNode (.nestedNameSpecifierLoc l) =
      if (!validNameMatch ns) = true then
        check { namespaceDecl := none, namespaceUsage := some l, usingNamespace := none }
      else .ok [] := by
  by_cases hm : (!validNameMatch ns) = true
  · simp only [runOnNode, registerMatchers, List.foldl_cons, List.foldl_nil, namespaceDeclMatcher,
      namespaceUsageMatcher, usingNamespaceMatcher, hns, hm, if_true]
    cases check { namespaceDecl := none, namespaceUsage := some l, usingNamespace := none } <;> rfl
  · simp only [runOnNode, registerMatchers, List.foldl_cons, List.foldl_nil, namespaceDeclMatcher,
      namespaceUsageMatcher, usingNamespaceMatcher, hns, hm]
    rfl

theorem runOnNode_usingNamespace (u : UsingDirectiveDecl) :
    runOnNode (.usingDirectiveDecl u) =
      if (!u.implicit) = true then
        check { namespaceDecl := none, namespaceUsage := none, usingNamespace := some u }
      else .ok [] := by
  by_cases hm : (!u.implicit) = true
  · simp only [runOnNode, registerMatchers, List.foldl_cons, List.foldl_nil, namespaceDeclMatcher,
      namespaceUsageMatcher, usingNamespaceMatcher, hm, if_true]
    cases check { namespaceDecl := none, namespaceUsage := none, usingNamespace := some u } <;> rfl
  · simp only [runOnNode, registerMatchers, List.foldl_cons, List.foldl_nil, namespaceDeclMatcher,
      namespaceUsageMatcher, usingNamespaceMatcher, hm]
    rfl

theorem runOnNode_of_out_of_scope_or_valid (n : Node) (ns : NamespaceDecl)
    (hns : referencedNamespace n = some ns)
    (h : isOutsideOfTargetScope ns.file = true ∨ regex_match ns.name VALID_NAME_REGEX = true) :
    runOnNode n = .ok [] := by
  cases n with
  | namespaceDecl d =>
    simp only [referencedNamespace, Option.some.injEq] at hns
    subst hns
    rw [runOnNode_namespaceDecl, check_namespaceDecl]
    rcases h with h | h
    · simp only [h, if_true, ite_self]
    · simp only [validNameMatch_of_valid d h, Bool.not_true, Bool.false_and, Bool.false_eq_true,
        if_false]
  | nestedNameSpecifierLoc l =>
    simp only [referencedNamespace] at hns
    rw [runOnNode_namespaceUsage l ns hns, check_namespaceUsage l ns hns]
    rcases h with h | h
    · simp only [h, if_true, ite_self]
    · simp only [validNameMatch_of_valid ns h, Bool.not_true, Bool.false_eq_true, if_false]
  | usingDirectiveDecl u =>
    simp only [referencedNamespace, Option.some.injEq] at hns
    subst hns
    rw [runOnNode_usingNamespace, check_usingNamespace]
    rcases h with h | h
    · simp only [h, if_true, ite_self]
    · simp only [h, if_true, ite_self]

/-! ## The renamed identifier passes the name pattern -/

theorem name_char_tolower {c : Char}
    (h : isupper c = true ∨ islower c = true ∨ isdigit c = true ∨ c = '_') :
    islower (tolower c) = true ∨ isdigit (tolower c) = true ∨ tolower c = '_' := by
  by_cases hu : isupper c = true
  · exact Or.inl (islower_tolower hu)
  · simp only [Bool.not_eq_true] at hu
    rw [tolower_of_not_upper hu]
    rcases h with h | h
    · rw [hu] at h; cases h
    · exact h

theorem toSnakeCase_valid (s : List Char) (hlen : 2 ≤ s.length)
    (hhead : ∃ c, s.head? = some c ∧ (isupper c = true ∨ islower c = true))
    (hall : ∀ c ∈ s, isupper c = true ∨ islower c = true ∨ isdigit c = true ∨ c = '_') :
    regex_match (toSnakeCase s) VALID_NAME_REGEX = true := by
  rw [valid_name_iff]
  refine ⟨le_trans hlen (length_toSnakeCaseFrom none s).1, ?_, ?_⟩
  · obtain ⟨c, hc, hletter⟩ := hhead
    cases s with
    | nil => simp at hc
    | cons x rest =>
      simp only [List.head?_cons, Option.some.injEq] at hc
      subst hc
      refine ⟨tolower x, by simp [toSnakeCase, toSnakeCaseFrom, emit], ?_⟩
      rcases name_char_tolower (c := x) (by tauto) with h | h | h
      · exact h
      · rcases hletter with hu | hl
        · exact islower_tolower hu
        · have hnu : isupper x = false := by
            simp only [islower, isupper, Bool.and_eq_true, decide_eq_true_eq,
              Bool.and_eq_false_iff, decide_eq_false_iff_not] at hl ⊢
            omega
          rw [tolower_of_not_upper hnu]; exact hl
      · rcases hletter with hu | hl
        · exact islower_tolower hu
        · have hnu : isupper x = false := by
            simp only [islower, isupper, Bool.and_eq_true, decide_eq_true_eq,
              Bool.and_eq_false_iff, decide_eq_false_iff_not] at hl ⊢
            omega
          rw [tolower_of_not_upper hnu]; exact hl
  · intro x hx
    rcases mem_toSnakeCaseFrom hx with rfl | ⟨c, hc, rfl⟩
    · exact Or.inr (Or.inr rfl)
    · exact name_char_tolower (hall c hc)

/-! ## The claims -/

/-- C1: for every identifier `s` (its length fits an `int`, as for every name clang hands to
the rule) `fixNamespaceName` returns the result of the one left-to-right pass `toSnakeCase`,
which tracks the previous character; that pass emits, for the character at each position
`i`, its lowercased form, preceded by one underscore exactly when the character is an
uppercase letter, `i > 0` and the character at position `i - 1` of `s` is a lowercase
letter. -/
theorem C1_fixNamespaceName_refines_toSnakeCase (s : List Char)
    (hlen : (s.length : Int) ≤ INT_MAX) :
    fixNamespaceName s = .ok (toSnakeCase s) ∧
      toSnakeCase s = (List.range s.length).flatMap (emitAt s) :=
  ⟨fixNamespaceName_eq s hlen, toSnakeCase_eq_positions s⟩

/-- C1 at `MyNamespace`, with the four sample transformations of the left-to-right pass. -/
theorem C1_witness :
    (("MyNamespace".toList.length : Nat) : Int) ≤ INT_MAX ∧
      (fixNamespaceName "MyNamespace".toList = .ok (toSnakeCase "MyNamespace".toList) ∧
        toSnakeCase "MyNamespace".toList
          = (List.range "MyNamespace".toList.length).flatMap (emitAt "MyNamespace".toList)) ∧
      toSnakeCase "MyNamespace".toList = "my_namespace".toList ∧
      toSnakeCase "HTTPServer".toList = "httpserver".toList ∧
      toSnakeCase "already_valid".toList = "already_valid".toList ∧
      toSnakeCase "X".toList = "x".toList :=
  ⟨by decide, C1_fixNamespaceName_refines_toSnakeCase "MyNamespace".toList (by decide),
    by decide, by decide, by decide, by decide⟩

/-- C2 as stated fails: `fixNamespaceName` does not turn `ABCdef` into `a_bcdef`. -/
theorem C2_counterexample : fixNamespaceName "ABCdef".toList ≠ .ok "a_bcdef".toList := by
  decide

/-- C2, amended: `fixNamespaceName` applied to `ABCdef` yields `abcdef`. -/
theorem C2_ABCdef_gives_abcdef : fixNamespaceName "ABCdef".toList = .ok "abcdef".toList := by
  decide

/-- C3: a string fully matches `VALID_NAME_REGEX` exactly when it has at least two characters,
starts with a lowercase letter and consists of lowercase letters, digits and underscores; so
the match fails for every string with an uppercase letter, of length below 2, or not starting
with a lowercase letter. -/
theorem C3_valid_name_characterisation (s : List Char) :
    (regex_match s VALID_NAME_REGEX = true ↔
      2 ≤ s.length ∧ (∃ c, s.head? = some c ∧ islower c = true) ∧
        ∀ c ∈ s, islower c = true ∨ isdigit c = true ∨ c = '_') ∧
    (((∃ c ∈ s, isupper c = true) ∨ s.length < 2 ∨
        ¬ (∃ c, s.head? = some c ∧ islower c = true)) →
      regex_match s VALID_NAME_REGEX = false) := by
  refine ⟨valid_name_iff s, ?_⟩
  intro h
  cases hm : regex_match s VALID_NAME_REGEX with
  | false => rfl
  | true =>
    obtain ⟨hlen, hhead, hall⟩ := (valid_name_iff s).mp hm
    rcases h with ⟨c, hc, hu⟩ | h | h
    · exact absurd (hall c hc) (not_name_char_of_upper hu)
    · omega
    · exact absurd hhead h

/-- C3 at `MyDet`, which contains the uppercase letter `M`. -/
theorem C3_witness :
    ('M' ∈ "MyDet".toList ∧ isupper 'M' = true) ∧
      regex_match "MyDet".toList VALID_NAME_REGEX = false :=
  ⟨⟨by decide, by decide⟩,
    (C3_valid_name_characterisation "MyDet".toList).2 (Or.inl ⟨'M', by decide, by decide⟩)⟩

/-- C4: for a node of any of the three kinds, when the file in which the namespace it
declares or refers to is defined is out of scope, or the simple name of that namespace
satisfies the valid-name pattern, the rule emits nothing for the node. -/
theorem C4_no_diagnostic_when_out_of_scope_or_valid (n : Node) (ns : NamespaceDecl)
    (hns : referencedNamespace n = some ns)
    (h : isOutsideOfTargetScope ns.file = true ∨ regex_match ns.name VALID_NAME_REGEX = true) :
    runOnNode n = .ok [] :=
  runOnNode_of_out_of_scope_or_valid n ns hns h

/-- C4 at a `using namespace` directive naming a valid namespace defined in scope, and at the
declaration `namespace MyDet { }` in a file out of scope. -/
theorem C4_witness :
    (referencedNamespace (.usingDirectiveDecl usingValidNamespace) = some validNamespace ∧
      regex_match validNamespace.name VALID_NAME_REGEX = true ∧
      runOnNode (.usingDirectiveDecl usingValidNamespace) = .ok []) ∧
    (referencedNamespace (.namespaceDecl myDetOutOfScope) = some myDetOutOfScope ∧
      isOutsideOfTargetScope myDetOutOfScope.file = true ∧
      runOnNode (.namespaceDecl myDetOutOfScope) = .ok []) :=
  ⟨⟨rfl, by decide,
      C4_no_diagnostic_when_out_of_scope_or_valid (.usingDirectiveDecl usingValidNamespace)
        validNamespace rfl (Or.inr (by decide))⟩,
    ⟨rfl, by decide,
      C4_no_diagnostic_when_out_of_scope_or_valid (.namespaceDecl myDetOutOfScope)
        myDetOutOfScope rfl (Or.inl (by decide))⟩⟩

/-- C5: for a non-anonymous namespace declaration whose simple name is an identifier (no
colon, length fitting an `int`) that does not satisfy the valid-name pattern: when its file is
in scope the rule emits exactly one diagnostic, at the declaration's location, whose
replacement text is the result of `fixNamespaceName` on the simple name; when its file is out
of scope the rule emits nothing. -/
theorem C5_invalid_declaration (d : NamespaceDecl) (hanon : d.anonymous = false)
    (hident : ':' ∉ d.name) (hlen : (d.name.length : Int) ≤ INT_MAX)
    (hinvalid : regex_match d.name VALID_NAME_REGEX = false) :
    (isOutsideOfTargetScope d.file = false →
      ∃ newName, fixNamespaceName d.name = .ok newName ∧
        runOnNode (.namespaceDecl d)
          = .ok [⟨d.location, message, d, d.location, newName⟩]) ∧
    (isOutsideOfTargetScope d.file = true → runOnNode (.namespaceDecl d) = .ok []) := by
  have hm : (!validNameMatch d && !d.anonymous) = true := by
    rw [validNameMatch_eq d hident, hinvalid, hanon]; rfl
  constructor
  · intro hscope
    refine ⟨toSnakeCase d.name, fixNamespaceName_eq d.name hlen, ?_⟩
    rw [runOnNode_namespaceDecl, if_pos hm, check_namespaceDecl, hscope,
      fixNamespaceName_eq d.name hlen]
    rfl
  · intro hscope
    rw [runOnNode_namespaceDecl, if_pos hm, check_namespaceDecl, if_pos hscope]

/-- C5 at `namespace MyDet { }`: one diagnostic suggesting `my_det` in a file below `O2`, none
in a file of another project. -/
theorem C5_witness :
    (myDetInScope.anonymous = false ∧ ':' ∉ myDetInScope.name ∧
      (myDetInScope.name.length : Int) ≤ INT_MAX ∧
      regex_match myDetInScope.name VALID_NAME_REGEX = false ∧
      isOutsideOfTargetScope myDetInScope.file = false ∧
      isOutsideOfTargetScope myDetOutOfScope.file = true) ∧
    (∃ newName, fixNamespaceName myDetInScope.name = .ok newName ∧
      runOnNode (.namespaceDecl myDetInScope)
        = .ok [⟨myDetInScope.location, message, myDetInScope, myDetInScope.location, newName⟩]) ∧
    fixNamespaceName myDetInScope.name = .ok "my_det".toList ∧
    runOnNode (.namespaceDecl myDetOutOfScope) = .ok [] :=
  ⟨⟨rfl, by decide, by decide, by decide, by decide, by decide⟩,
    (C5_invalid_declaration myDetInScope rfl (by decide) (by decide) (by decide)).1 (by decide),
    by decide,
    (C5_invalid_declaration myDetOutOfScope rfl (by decide) (by decide) (by decide)).2
      (by decide)⟩

/-- C6 as stated fails: `O2/foo.cxx` has the non-final segment `O2` but is out of scope, since
the pattern needs a `/` before `O2`; and a path with a line break is out of scope whatever
its segments are. -/
theorem C6_counterexample :
    ¬ (isOutsideOfTargetScope "O2/foo.cxx".toList = false ↔
        hasDirectoryComponent "O2/foo.cxx".toList = true) ∧
    ¬ (isOutsideOfTargetScope "/O2/a\nb".toList = false ↔
        hasDirectoryComponent "/O2/a\nb".toList = true) := by
  decide

/-- C6, amended: a path is in scope exactly when it contains no line feed or carriage return
and some segment of it split on `/`, other than the first and the final segment, equals `O2`
or `test`; that is, when it has no line break and contains `/O2/` or `/test/`. The two sample
paths below `O2` and `test` are in scope, the one of another project is not. -/
theorem C6_in_scope_characterisation :
    (∀ p : List Char, isOutsideOfTargetScope p = false ↔
      (∀ c ∈ p, c ≠ '\n' ∧ c ≠ '\r') ∧ hasInnerDirectoryComponent p = true) ∧
    (∀ p : List Char, isOutsideOfTargetScope p = false ↔
      (∀ c ∈ p, c ≠ '\n' ∧ c ≠ '\r') ∧
        (['/', 'O', '2', '/'] <:+: p ∨ ['/', 't', 'e', 's', 't', '/'] <:+: p)) ∧
    isOutsideOfTargetScope "/home/user/O2/Detectors/foo.cxx".toList = false ∧
    isOutsideOfTargetScope "/any/path/test/bar.cxx".toList = false ∧
    isOutsideOfTargetScope "/home/user/otherproj/foo.cxx".toList = true :=
  ⟨in_scope_iff_segments, in_scope_iff, by decide, by decide, by decide⟩

/-- C7 as stated fails: on a string of `2^31 + 1` letters `A` the index `name.size()-1` does
not fit an `int`, the loop is not entered and the string is returned with its uppercase
letters. -/
theorem C7_counterexample :
    fixNamespaceName (List.replicate 2147483649 'A') = .ok (List.replicate 2147483649 'A') ∧
      'A' ∈ List.replicate 2147483649 'A' ∧ isupper 'A' = true := by
  refine ⟨fixNamespaceName_of_wrapped _ ?_ ?_, ?_, by decide⟩
  · rw [List.length_replicate]; omega
  · rw [List.length_replicate]; omega
  · rw [List.mem_replicate]; exact ⟨by omega, rfl⟩

/-- C7, amended: for every input string whose length fits an `int`, `fixNamespaceName` returns
a string without uppercase letters. -/
theorem C7_no_uppercase_in_output (s : List Char) (hlen : (s.length : Int) ≤ INT_MAX) :
    ∃ out, fixNamespaceName s = .ok out ∧ ∀ c ∈ out, isupper c = false :=
  ⟨toSnakeCase s, fixNamespaceName_eq s hlen, fun _ h => isupper_of_mem_toSnakeCase h⟩

/-- C7 at `HTTPServer`. -/
theorem C7_witness :
    (("HTTPServer".toList.length : Nat) : Int) ≤ INT_MAX ∧
      ∃ out, fixNamespaceName "HTTPServer".toList = .ok out ∧ ∀ c ∈ out, isupper c = false :=
  ⟨by decide, C7_no_uppercase_in_output "HTTPServer".toList (by decide)⟩

/-- C8: `fixNamespaceName` is idempotent. For every input string `x`, whatever the function
returns on `x` is returned unchanged by a second application. The function returns on every
input except where its `i++` overflows, in particular on every `x` whose length fits an
`int`; and for every `x` without uppercase letters, of any length, it returns `x` itself. -/
theorem C8_idempotent (x : List Char) :
    (∀ y, fixNamespaceName x = .ok y → fixNamespaceName y = .ok y) ∧
    ((∃ y, fixNamespaceName x = .ok y) ∨ fixNamespaceName x = .error .intOverflow) ∧
    ((x.length : Int) ≤ INT_MAX → ∃ y, fixNamespaceName x = .ok y) ∧
    ((∀ c ∈ x, isupper c = false) → fixNamespaceName x = .ok x) :=
  ⟨fun y h => fixNamespaceName_fixed_point x y h,
    fixNamespaceName_returns_or_overflows x,
    fun hlen => ⟨toSnakeCase x, fixNamespaceName_eq x hlen⟩,
    fun h => fixNamespaceName_of_no_upper x h⟩

/-- C8 at `MyNamespace` and at `already_valid`. -/
theorem C8_witness :
    (fixNamespaceName "MyNamespace".toList = .ok "my_namespace".toList ∧
      fixNamespaceName "my_namespace".toList = .ok "my_namespace".toList) ∧
    ((("MyNamespace".toList.length : Nat) : Int) ≤ INT_MAX ∧
      ∃ y, fixNamespaceName "MyNamespace".toList = .ok y) ∧
    ((∀ c ∈ "already_valid".toList, isupper c = false) ∧
      fixNamespaceName "already_valid".toList = .ok "already_valid".toList) :=
  ⟨⟨by decide, (C8_idempotent "MyNamespace".toList).1 "my_namespace".toList (by decide)⟩,
    ⟨by decide, (C8_idempotent "MyNamespace".toList).2.2.1 (by decide)⟩,
    ⟨by decide, (C8_idempotent "already_valid".toList).2.2.2 (by decide)⟩⟩

/-- C9: for every input string whose length fits an `int`, the loop of `fixNamespaceName`
stops within `2 * size + 1` evaluations of its guard, whatever larger budget it is given, and
returns without an access outside the string and without overflow of the index. -/
theorem C9_terminates_within_bounds (name : List Char)
    (hlen : (name.length : Int) ≤ INT_MAX) :
    ∃ out, ∀ fuel, 2 * name.length + 1 ≤ fuel → fixNamespaceNameFuel fuel name = .ok out :=
  ⟨toSnakeCase name, fun fuel hfuel => fixNamespaceNameFuel_eq name fuel hlen hfuel⟩

/-- C9 at `myServer`, where an underscore is inserted. -/
theorem C9_witness :
    (("myServer".toList.length : Nat) : Int) ≤ INT_MAX ∧
      ∃ out, ∀ fuel, 2 * "myServer".toList.length + 1 ≤ fuel →
        fixNamespaceNameFuel fuel "myServer".toList = .ok out :=
  ⟨by decide, C9_terminates_within_bounds "myServer".toList (by decide)⟩

/-- C10: for every identifier (its length fits an `int`) of at least two characters that
starts with a letter and consists of letters, digits and underscores, `fixNamespaceName`
returns a name that fully matches `VALID_NAME_REGEX`. -/
theorem C10_fixed_name_is_valid (s : List Char) (hlen : (s.length : Int) ≤ INT_MAX)
    (h2 : 2 ≤ s.length)
    (hhead : ∃ c, s.head? = some c ∧ (isupper c = true ∨ islower c = true))
    (hall : ∀ c ∈ s, isupper c = true ∨ islower c = true ∨ isdigit c = true ∨ c = '_') :
    ∃ newName, fixNamespaceName s = .ok newName ∧
      regex_match newName VALID_NAME_REGEX = true :=
  ⟨toSnakeCase s, fixNamespaceName_eq s hlen, toSnakeCase_valid s h2 hhead hall⟩

/-- C10 at `MyDet`. -/
theorem C10_witness :
    ((("MyDet".toList.length : Nat) : Int) ≤ INT_MAX ∧ 2 ≤ "MyDet".toList.length ∧
      "MyDet".toList.head? = some 'M' ∧ isupper 'M' = true) ∧
    ∃ newName, fixNamespaceName "MyDet".toList = .ok newName ∧
      regex_match newName VALID_NAME_REGEX = true :=
  ⟨⟨by decide, by decide, rfl, by decide⟩,
    C10_fixed_name_is_valid "MyDet".toList (by decide) (by decide)
      ⟨'M', rfl, Or.inl (by decide)⟩ (by decide)⟩

end NamespaceNamingCheck
